import Mathlib

/-!
Verification development for the LocalDce pass of the repository
(`src/service/local-dce/LocalDce.h`).

The repository ships only the interface header `LocalDce.h`: the `Stats`
structure with its inline `operator+=` (lines 26-41), the constructor taking
the pure-method set and the optional method-override graph (lines 69-75), the
algorithm description comment (lines 43-67), and the declarations of
`dce`, `get_dead_instructions`, `is_required`, `assumenosideeffects` and
`normalize_new_instances`.  The bodies of those member functions are not part
of the source tree, so everything below the `Stats` structure is modelled from
the specification's description of the pass (data model, liveness engine,
requirement classifier, purity oracle, dce driver and the generic
dead-instruction query), staying with the header's algorithm comment wherever
it speaks.
-/

/-- Accumulated statistics of the pass, translated from
`LocalDce::Stats` (LocalDce.h lines 26-41): five `size_t` counters, each
initialised to `0` by the default member initialisers. -/
structure Stats where
  npe_instruction_count : ℕ := 0
  dead_instruction_count : ℕ := 0
  unreachable_instruction_count : ℕ := 0
  aliased_new_instances : ℕ := 0
  normalized_new_instances : ℕ := 0
deriving DecidableEq

/-- A default-constructed `Stats` value: every field takes its `{0}` default
member initialiser (LocalDce.h lines 27-31). -/
def Stats.init : Stats := {}

/-- Translated from `Stats::operator+=` (LocalDce.h lines 33-40): the merge
adds each of the five counters independently.  The C++ operator mutates its
left operand and returns it; the functional translation returns the merged
value. -/
def Stats.add (a b : Stats) : Stats where
  npe_instruction_count := a.npe_instruction_count + b.npe_instruction_count
  dead_instruction_count := a.dead_instruction_count + b.dead_instruction_count
  unreachable_instruction_count :=
    a.unreachable_instruction_count + b.unreachable_instruction_count
  aliased_new_instances := a.aliased_new_instances + b.aliased_new_instances
  normalized_new_instances :=
    a.normalized_new_instances + b.normalized_new_instances

/-- Modelled from the spec: the data model of one low-level instruction
(spec section 3).  The body of the pass is not in the source tree, so the
instruction carries exactly the attributes the spec names: an optional
destination register, an ordered list of source registers, the intrinsic
side-effect flag (object write, I/O, unconditional control transfer), the
may-throw flag, and for calls a callee reference together with virtuality.
`writesResultBit` marks instructions whose pending result is represented by
the synthetic liveness slot at index `num_regs` (calls and other
result-producing throwing instructions); `readsResultBit` marks the
move-result style instructions that consume that slot. -/
structure Instr where
  dest : Option ℕ
  srcs : List ℕ
  sideEffect : Bool
  mayThrow : Bool
  isCall : Bool
  isVirtual : Bool
  callee : ℕ
  writesResultBit : Bool
  readsResultBit : Bool
deriving DecidableEq

/-- Modelled from the spec: edge kinds of the control-flow graph
(spec section 3, "Edge"). -/
inductive EdgeKind where
  | goto
  | branch
  | throwEdge
  | ghost
deriving DecidableEq

/-- Modelled from the spec: a basic block is an ordered instruction sequence,
a list of outgoing edges (kind and target block index) and the flag marking a
catch-handler entry (spec section 3, "Block"). -/
structure Block where
  instrs : List Instr
  succs : List (EdgeKind × ℕ)
  isCatchHandler : Bool
deriving DecidableEq

instance : Inhabited Block := ⟨⟨[], [], false⟩⟩

/-- Modelled from the spec: a method's control-flow graph, with the fixed
register count of the invocation (spec section 3). -/
structure Graph where
  blocks : List Block
  numRegs : ℕ
deriving DecidableEq

/-- Modelled from the spec: the two immutable inputs of the `LocalDce`
constructor (LocalDce.h lines 69-75): the pure-callable set and the optional
method-override graph (absent = `nullptr` disables the virtual-purity
extension). -/
structure PurityEnv where
  pureMethods : List ℕ
  overrideGraph : Option (ℕ → List ℕ)

/-- The registers an instruction writes: its destination register plus, when
it produces a pending call/throw result, the synthetic slot `nr`
(spec section 3, "Register"). -/
def Instr.defs (i : Instr) (nr : ℕ) : List ℕ :=
  i.dest.toList ++ (if i.writesResultBit then [nr] else [])

/-- The registers an instruction reads: its source registers plus, for a
move-result style instruction, the synthetic slot `nr`. -/
def Instr.uses (i : Instr) (nr : ℕ) : List ℕ :=
  i.srcs ++ (if i.readsResultBit then [nr] else [])

/-- Modelled from the spec: `LocalDce::assumenosideeffects` is declared at
LocalDce.h line 99 but its body is not in the source tree.  Following the
Purity Oracle contract (spec section 4.2), read as an ordered decision list:
a call whose callee reference is in the pure-callable set is side-effect
free; otherwise a virtual call with an available override graph is side-effect
free exactly when every possible overriding method reference is in the
pure-callable set; otherwise the call is not side-effect free. -/
def assumenosideeffects (env : PurityEnv) (i : Instr) : Bool :=
  if i.callee ∈ env.pureMethods then true
  else if i.isVirtual then
    match env.overrideGraph with
    | some og => (og i.callee).all (fun m => decide (m ∈ env.pureMethods))
    | none => false
  else false

/-- Modelled from the spec: `LocalDce::is_required` is declared at
LocalDce.h lines 95-98 but its body is not in the source tree.  Following the
Requirement Classifier contract (spec section 4.3), with `bliveness` the
liveness immediately after the instruction:
rule 2 classifies call instructions (required unless the Purity Oracle
certifies the call side-effect free and no register it defines is live);
rule 1 keeps instructions with an intrinsic non-defining side effect
(the spec's rule 1 enumerates only non-call effects, so calls are classified
by rule 2); rule 3 keeps instructions that may throw ("the classifier must
not delete a throwing instruction purely because its defined register is
dead"); rule 4 keeps an instruction exactly when a register it defines is
live. -/
def is_required (env : PurityEnv) (nr : ℕ) (i : Instr) (bliveness : Finset ℕ) :
    Bool :=
  if i.isCall then
    !(assumenosideeffects env i &&
      (i.defs nr).all (fun d => decide (d ∉ bliveness)))
  else if i.sideEffect then true
  else if i.mayThrow then true
  else (i.defs nr).any (fun d => decide (d ∈ bliveness))

/-- Remove a list of registers from a liveness set. -/
def eraseList (ds : List ℕ) (l : Finset ℕ) : Finset ℕ :=
  ds.foldr (fun d s => s.erase d) l

/-- Modelled from the spec: one step of the reverse instruction walk of the
liveness engine (spec section 4.1, LocalDce.h lines 53-55): the destination
registers are cleared, and for a required instruction the source registers
are marked live ("An instruction's input registers are live if (a) it has
side effects, or (b) its output registers are live"). -/
def stepLive (nr : ℕ) (req : Instr → Finset ℕ → Bool) (i : Instr)
    (l : Finset ℕ) : Finset ℕ :=
  let cleared := eraseList (i.defs nr) l
  if req i l then cleared ∪ (i.uses nr).toFinset else cleared

/-- The liveness at the top of an instruction sequence, obtained by walking
the sequence backward from the live-out set `out`. -/
def transfer (nr : ℕ) (req : Instr → Finset ℕ → Bool) (instrs : List Instr)
    (out : Finset ℕ) : Finset ℕ :=
  instrs.foldr (stepLive nr req) out

/-- The block stored at an index; out-of-range indices give the empty block. -/
def blockAt (g : Graph) (b : ℕ) : Block :=
  g.blocks.getD b default

/-- The successor block indices of a block, over every edge kind (goto,
branch, throw, ghost).  Throw edges being ordinary successors realises the
catch-block rule of LocalDce.h lines 62-66: registers live-in to a catch
handler are propagated into the live-out of every block with a throw edge to
it. -/
def succIdxs (g : Graph) (b : ℕ) : List ℕ :=
  (blockAt g b).succs.map Prod.snd

/-- Modelled from the spec: a block's live-out is the union of the live-in
sets of all its successors (LocalDce.h lines 50-52). -/
def liveOutOf (g : Graph) (L : ℕ → Finset ℕ) (b : ℕ) : Finset ℕ :=
  (succIdxs g b).foldr (fun s acc => L s ∪ acc) ∅

/-- The requirement predicate the dce pipeline feeds to the liveness engine:
`is_required` over the constructor's purity environment. -/
def reqOf (env : PurityEnv) (g : Graph) : Instr → Finset ℕ → Bool :=
  is_required env g.numRegs

/-- Modelled from the spec: one full sweep of the backward fixed-point
liveness analysis (spec section 4.1, LocalDce.h lines 50-60): every block's
live-in is recomputed from its successors' live-ins.  The header sweeps
blocks in postorder updating in place; the model recomputes all blocks
simultaneously, which reaches the same least fixed point and satisfies the
same monotonicity and iteration bound. -/
def sweep (env : PurityEnv) (g : Graph) (L : ℕ → Finset ℕ) : ℕ → Finset ℕ :=
  fun b => transfer g.numRegs (reqOf env g) (blockAt g b).instrs (liveOutOf g L b)

/-- The liveness map after `k` sweeps, starting from all-empty. -/
def liveIter (env : PurityEnv) (g : Graph) (k : ℕ) : ℕ → Finset ℕ :=
  (sweep env g)^[k] (fun _ => ∅)

/-- The sweep count after which the fixed point is provably reached:
`(num_regs + 1) * block_count` (spec section 8, LocalDce.h lines 57-60). -/
def fixSteps (g : Graph) : ℕ :=
  (g.numRegs + 1) * g.blocks.length

/-- The live-in map computed by the liveness engine: the fixed point of the
sweep. -/
def liveInFix (env : PurityEnv) (g : Graph) : ℕ → Finset ℕ :=
  liveIter env g (fixSteps g)

/-- A well-formed instruction names only registers below `nr` (spec
section 7: an instruction referencing a register outside the range is a
precondition violation). -/
def WFInstr (nr : ℕ) (i : Instr) : Prop :=
  (∀ s ∈ i.srcs, s < nr) ∧ (∀ d ∈ i.dest.toList, d < nr)

/-- A well-formed graph contains only well-formed instructions. -/
def WFGraph (g : Graph) : Prop :=
  ∀ b ∈ g.blocks, ∀ i ∈ b.instrs, WFInstr g.numRegs i

instance (nr : ℕ) (i : Instr) : Decidable (WFInstr nr i) := by
  unfold WFInstr; infer_instance

instance (g : Graph) : Decidable (WFGraph g) := by
  unfold WFGraph; infer_instance

/-- A requirement predicate that is monotone in the liveness set. -/
def ReqMono (req : Instr → Finset ℕ → Bool) : Prop :=
  ∀ i : Instr, ∀ l l' : Finset ℕ, l ⊆ l' → req i l = true → req i l' = true

/-- The number of liveness bits set across all blocks of the graph. -/
def totalCard (g : Graph) (L : ℕ → Finset ℕ) : ℕ :=
  Finset.sum (Finset.range g.blocks.length) fun b => (L b).card

/-- Register files assign a value to every register index, the synthetic
result slot included. -/
abbrev RegFile := ℕ → ℕ

/-- Abstract value semantics of instructions: the value an instruction writes
into a register it defines, as a function of the values it read.  The claims
hold for every such semantics. -/
abbrev EvalFn := Instr → ℕ → List ℕ → ℕ

/-- Modelled from the spec: executing one instruction: every register the
instruction defines receives a value computed from the values of the
registers the instruction reads; all other registers are untouched. -/
def execInstr (ev : EvalFn) (nr : ℕ) (i : Instr) (σ : RegFile) : RegFile :=
  fun x => if x ∈ i.defs nr then ev i x ((i.uses nr).map σ) else σ x

/-- One observable step of a run: the executed instruction together with the
operand values it read.  The may-throw events among these determine which
exceptions the method can raise and with which operands. -/
abbrev Event := Instr × List ℕ

/-- Run an instruction sequence, recording every executed instruction with
its operand values. -/
def runT (ev : EvalFn) (nr : ℕ) : List Instr → RegFile → RegFile × List Event
  | [], σ => (σ, [])
  | i :: rest, σ =>
    let r := runT ev nr rest (execInstr ev nr i σ)
    (r.1, (i, (i.uses nr).map σ) :: r.2)

/-- Run a list of blocks of a graph in sequence (an execution path). -/
def runBlocks (ev : EvalFn) (g : Graph) :
    List ℕ → RegFile → RegFile × List Event
  | [], σ => (σ, [])
  | b :: rest, σ =>
    let r1 := runT ev g.numRegs (blockAt g b).instrs σ
    let r2 := runBlocks ev g rest r1.1
    (r2.1, r1.2 ++ r2.2)

/-- A block-index list continues a path from `b` when consecutive entries are
joined by successor edges. -/
def chainOK (g : Graph) : ℕ → List ℕ → Prop
  | _, [] => True
  | b, c :: rest => c ∈ succIdxs g b ∧ chainOK g c rest

/-- Two register files agree on every register of a set. -/
def Agree (S : Finset ℕ) (σ σ' : RegFile) : Prop :=
  ∀ x ∈ S, σ x = σ' x

/-- Modelled from the spec: the deletion phase of the pipeline on one
instruction sequence: walking against the live-out set, keep exactly the
instructions the classifier marks required at their point (spec
section 4.3: "Any instruction not required is dead; dead instructions are
removed"). -/
def filterLive (nr : ℕ) (req : Instr → Finset ℕ → Bool) :
    List Instr → Finset ℕ → List Instr
  | [], _ => []
  | i :: rest, out =>
    if req i (transfer nr req rest out) then i :: filterLive nr req rest out
    else filterLive nr req rest out

/-- Modelled from the spec: `LocalDce::dce` is declared at LocalDce.h lines
79-80 but its body is not in the source tree.  The deletion phase of the
pipeline (liveness fixed point, classification, deletion): every block keeps
exactly its required instructions, judged against the computed fixed point;
edges and flags are untouched. -/
def dceGraph (env : PurityEnv) (g : Graph) : Graph :=
  ⟨(List.range g.blocks.length).map fun b =>
      ⟨filterLive g.numRegs (reqOf env g) (blockAt g b).instrs
          (liveOutOf g (liveInFix env g) b),
        (blockAt g b).succs, (blockAt g b).isCatchHandler⟩,
    g.numRegs⟩

/-- The instructions the pipeline may delete: side-effect-free calls, and
non-call instructions with no intrinsic side effect that cannot throw. -/
def deletable (env : PurityEnv) (i : Instr) : Prop :=
  (i.isCall = true ∧ assumenosideeffects env i = true) ∨
    (i.isCall = false ∧ i.sideEffect = false ∧ i.mayThrow = false)

/-- Walk one block backward against its live-out set, computing the block's
live-in and collecting the positions of the non-required instructions, later
positions first (the order in which a reverse instruction walk meets
them). -/
def analyzeBlock (nr : ℕ) (req : Instr → Finset ℕ → Bool) :
    List Instr → Finset ℕ → Finset ℕ × List ℕ
  | [], out => (out, [])
  | i :: rest, out =>
    let r := analyzeBlock nr req rest out
    if req i r.1 then (stepLive nr req i r.1, r.2.map (· + 1))
    else (stepLive nr req i r.1, r.2.map (· + 1) ++ [0])

/-- One sweep of the generic query's liveness analysis, over the
caller-supplied successor function and requirement predicate. -/
def gdiSweep (g : Graph) (succs : ℕ → List ℕ) (req : Instr → Finset ℕ → Bool)
    (L : ℕ → Finset ℕ) : ℕ → Finset ℕ :=
  fun b => transfer g.numRegs req (blockAt g b).instrs
    ((succs b).foldr (fun s acc => L s ∪ acc) ∅)

/-- The liveness map the generic query computes. -/
def gdiLive (g : Graph) (succs : ℕ → List ℕ)
    (req : Instr → Finset ℕ → Bool) : ℕ → Finset ℕ :=
  (gdiSweep g succs req)^[fixSteps g] (fun _ => ∅)

/-- The live-out set the generic query uses for a block. -/
def gdiOut (g : Graph) (succs : ℕ → List ℕ) (req : Instr → Finset ℕ → Bool)
    (b : ℕ) : Finset ℕ :=
  (succs b).foldr (fun s acc => gdiLive g succs req s ∪ acc) ∅

/-- Modelled from the spec: `LocalDce::get_dead_instructions` is declared at
LocalDce.h lines 81-87 but its body is not in the source tree.  Following
spec section 4.5: run only the liveness and classification logic over a
caller-supplied block subset, successor function and requirement predicate,
and return the list of (block, instruction-position) pairs that would be
deleted.  The graph is threaded through unchanged — the query does not
mutate it. -/
def get_dead_instructions (g : Graph) (bs : List ℕ) (succs : ℕ → List ℕ)
    (req : Instr → Finset ℕ → Bool) : Graph × List (ℕ × ℕ) :=
  (g, (bs.map fun b =>
      ((analyzeBlock g.numRegs req (blockAt g b).instrs
          (gdiOut g succs req b)).2.map
        fun k => (b, k))).flatten)

/-- Path-based justification of liveness, relative to the computed fixed
point: register `r` is used on some path starting at block `b` — some
instruction classified required reads it (sources, or the synthetic result
slot) and no instruction before it on the path writes it; paths follow
successor edges of every kind, throw edges to catch handlers included. -/
inductive PathUse (env : PurityEnv) (g : Graph) : ℕ → ℕ → Prop where
  | here (b r : ℕ) (pre : List Instr) (i : Instr) (post : List Instr) :
      (blockAt g b).instrs = pre ++ i :: post →
      reqOf env g i
        (transfer g.numRegs (reqOf env g) post
          (liveOutOf g (liveInFix env g) b)) = true →
      r ∈ i.uses g.numRegs →
      (∀ j ∈ pre, r ∉ j.defs g.numRegs) →
      PathUse env g b r
  | there (b r s : ℕ) :
      s ∈ succIdxs g b →
      (∀ j ∈ (blockAt g b).instrs, r ∉ j.defs g.numRegs) →
      PathUse env g s r →
      PathUse env g b r

/-- The liveness predicate the claim states literally: some path starting at
the block reads the register before it is next written, with no requirement
qualification on the reading instruction.  Kept beside `PathUse` to compare
the spec's contract sentence with the computed analysis. -/
inductive NaiveReads (g : Graph) (nr : ℕ) : ℕ → ℕ → Prop where
  | here (b r : ℕ) (pre : List Instr) (i : Instr) (post : List Instr) :
      (blockAt g b).instrs = pre ++ i :: post →
      r ∈ i.uses nr →
      (∀ j ∈ pre, r ∉ j.defs nr) →
      NaiveReads g nr b r
  | there (b r s : ℕ) :
      s ∈ succIdxs g b →
      (∀ j ∈ (blockAt g b).instrs, r ∉ j.defs nr) →
      NaiveReads g nr s r →
      NaiveReads g nr b r

section Examples

/-- A throwing `const`-like instruction writing register `d`. -/
def mkConst (d : ℕ) : Instr :=
  ⟨some d, [], false, false, false, false, 0, false, false⟩

/-- A return-like instruction reading `rs`: unconditional control transfer,
hence an intrinsic side effect (spec section 4.3 rule 1). -/
def mkRet (rs : List ℕ) : Instr :=
  ⟨none, rs, true, false, false, false, 0, false, false⟩

/-- A register-to-register move. -/
def mkMove (d s : ℕ) : Instr :=
  ⟨some d, [s], false, false, false, false, 0, false, false⟩

/-- A (possibly virtual) call to `callee`; its pending result is the
synthetic slot. -/
def mkCall (callee : ℕ) (virt : Bool) (srcs : List ℕ) : Instr :=
  ⟨none, srcs, false, true, true, virt, callee, true, false⟩

/-- A move-result instruction writing `d` from the synthetic slot. -/
def mkMoveResult (d : ℕ) : Instr :=
  ⟨some d, [], false, false, false, false, 0, false, true⟩

/-- An empty purity environment. -/
def env0 : PurityEnv := ⟨[], none⟩

/-- Scenario 1 of the spec (section 8): `[r0 = const 5; r1 = add r0 r0;
return r0]` in one block; `r1` is dead. -/
def gScenario1 : Graph :=
  ⟨[⟨[mkConst 0, ⟨some 1, [0, 0], false, false, false, false, 0, false, false⟩,
      mkRet [0]], [], false⟩], 2⟩

/-- The constant-zero value semantics, for concrete runs. -/
def evZero : EvalFn := fun _ _ _ => 0

/-- The all-zero register file. -/
def sigmaZero : RegFile := fun _ => 0

/-- A purity environment in which method `0` is pure and no override graph
is available. -/
def envPure : PurityEnv := ⟨[0], none⟩

/-- One block: a side-effect-free may-throw call (callee `0`, non-virtual)
whose result is never read, then a return. -/
def gCall : Graph := ⟨[⟨[mkCall 0 false [], mkRet []], [], false⟩], 1⟩

/-- One block: a move `r1 := r0` whose destination is never read, then a
return reading nothing. -/
def gMove : Graph := ⟨[⟨[mkMove 1 0, mkRet []], [], false⟩], 2⟩

/-- A purity environment with method `0` pure and an override graph mapping
every method to the single overrider `1`, which is not pure. -/
def envVirt : PurityEnv := ⟨[0], some fun _ => [1]⟩

/-- A virtual call to the pure callee `0`. -/
def callVirt : Instr := mkCall 0 true []

/-- Two blocks: block 0 writes register 0 twice and returns, with a throw
edge to the catch-handler block 1, where register 0 is live-in (block 1
returns it). -/
def gTwoWrites : Graph :=
  ⟨[⟨[mkConst 0, mkConst 0, mkRet []], [(EdgeKind.throwEdge, 1)], false⟩,
    ⟨[mkRet [0]], [], true⟩], 1⟩

end Examples

theorem mem_eraseList {ds : List ℕ} {l : Finset ℕ} {r : ℕ} :
    r ∈ eraseList ds l ↔ r ∈ l ∧ r ∉ ds := by
  induction ds with
  | nil => simp [eraseList]
  | cons d ds ih =>
    simp only [eraseList, List.foldr] at ih ⊢
    rw [Finset.mem_erase]
    simp only [List.mem_cons, ih]
    tauto

theorem eraseList_subset (ds : List ℕ) (l : Finset ℕ) : eraseList ds l ⊆ l :=
  fun _ hx => (mem_eraseList.mp hx).1

theorem eraseList_mono {ds : List ℕ} {l l' : Finset ℕ} (h : l ⊆ l') :
    eraseList ds l ⊆ eraseList ds l' := by
  intro x hx
  rw [mem_eraseList] at hx ⊢
  exact ⟨h hx.1, hx.2⟩

/-- Characterisation of the classifier on call instructions: required unless
the Purity Oracle certifies the call side-effect free and no defined register
is live (spec section 4.3 rule 2). -/
theorem is_required_call {env : PurityEnv} {nr : ℕ} {i : Instr}
    {l : Finset ℕ} (hc : i.isCall = true) :
    is_required env nr i l = true ↔
      ¬(assumenosideeffects env i = true ∧ ∀ d ∈ i.defs nr, d ∉ l) := by
  cases hA : assumenosideeffects env i with
  | false =>
    simp [is_required, hc, hA]
  | true =>
    simp only [is_required, hc, if_true, hA, Bool.true_and, true_and,
      Bool.not_eq_true']
    rw [show ((i.defs nr).all (fun d => decide (d ∉ l)) = false) ↔
        ¬((i.defs nr).all (fun d => decide (d ∉ l)) = true) by
      cases (i.defs nr).all (fun d => decide (d ∉ l)) <;> simp]
    simp [List.all_eq_true]

/-- Characterisation of the classifier on non-call instructions: intrinsic
side effect, may-throw, or a live defined register (spec section 4.3 rules 1,
3 and 4). -/
theorem is_required_noncall {env : PurityEnv} {nr : ℕ} {i : Instr}
    {l : Finset ℕ} (hc : i.isCall = false) :
    is_required env nr i l = true ↔
      (i.sideEffect = true ∨ i.mayThrow = true ∨ ∃ d ∈ i.defs nr, d ∈ l) := by
  by_cases hs : i.sideEffect = true
  · simp [is_required, hc, hs]
  · by_cases hm : i.mayThrow = true
    · simp [is_required, hc, hs, hm]
    · simp [is_required, hc, hs, hm, List.any_eq_true]

/-- The pipeline's requirement classifier is monotone in the liveness set:
growing liveness can only turn instructions required, never the other way. -/
theorem is_required_mono (env : PurityEnv) (nr : ℕ) :
    ReqMono (is_required env nr) := by
  intro i l l' hsub h
  by_cases hc : i.isCall = true
  · rw [is_required_call hc] at h ⊢
    intro ⟨hsef, hdead⟩
    exact h ⟨hsef, fun d hd hmem => hdead d hd (hsub hmem)⟩
  · rw [is_required_noncall (Bool.not_eq_true _ ▸ hc)] at h ⊢
    rcases h with h | h | ⟨d, hd, hmem⟩
    · exact Or.inl h
    · exact Or.inr (Or.inl h)
    · exact Or.inr (Or.inr ⟨d, hd, hsub hmem⟩)

theorem stepLive_mono {nr : ℕ} {req : Instr → Finset ℕ → Bool}
    (hreq : ReqMono req) (i : Instr) {l l' : Finset ℕ} (h : l ⊆ l') :
    stepLive nr req i l ⊆ stepLive nr req i l' := by
  unfold stepLive
  by_cases h1 : req i l = true
  · rw [if_pos h1, if_pos (hreq i l l' h h1)]
    exact Finset.union_subset_union_left (eraseList_mono h)
  · rw [if_neg h1]
    by_cases h2 : req i l' = true
    · rw [if_pos h2]
      exact (eraseList_mono h).trans Finset.subset_union_left
    · rw [if_neg h2]
      exact eraseList_mono h

theorem transfer_mono {nr : ℕ} {req : Instr → Finset ℕ → Bool}
    (hreq : ReqMono req) (instrs : List Instr) {out out' : Finset ℕ}
    (h : out ⊆ out') :
    transfer nr req instrs out ⊆ transfer nr req instrs out' := by
  induction instrs with
  | nil => exact h
  | cons i rest ih => exact stepLive_mono hreq i ih

theorem liveOutOf_mono {g : Graph} {L L' : ℕ → Finset ℕ}
    (h : ∀ b, L b ⊆ L' b) (b : ℕ) :
    liveOutOf g L b ⊆ liveOutOf g L' b := by
  unfold liveOutOf
  induction succIdxs g b with
  | nil => exact Finset.Subset.refl _
  | cons s rest ih => exact Finset.union_subset_union (h s) ih

theorem sweep_mono {env : PurityEnv} {g : Graph} {L L' : ℕ → Finset ℕ}
    (h : ∀ b, L b ⊆ L' b) (b : ℕ) :
    sweep env g L b ⊆ sweep env g L' b :=
  transfer_mono (is_required_mono env g.numRegs) _ (liveOutOf_mono h b)

/-- Live-in sets are monotone non-decreasing across sweeps. -/
theorem liveIter_succ_mono (env : PurityEnv) (g : Graph) :
    ∀ k b, liveIter env g k b ⊆ liveIter env g (k + 1) b := by
  intro k
  induction k with
  | zero => intro b x hx; simp [liveIter] at hx
  | succ k ih =>
    intro b
    rw [liveIter, liveIter, Function.iterate_succ_apply',
      Function.iterate_succ_apply']
    exact sweep_mono ih b

theorem liveIter_mono_of_le (env : PurityEnv) (g : Graph) {k m : ℕ}
    (h : k ≤ m) (b : ℕ) : liveIter env g k b ⊆ liveIter env g m b := by
  induction m with
  | zero => rw [Nat.le_zero.mp h]
  | succ m ih =>
    rcases Nat.lt_or_ge k (m + 1) with hlt | hge
    · exact (ih (Nat.lt_succ_iff.mp hlt)).trans (liveIter_succ_mono env g m b)
    · rw [Nat.le_antisymm h hge]

theorem stepLive_subset_of {nr : ℕ} {req : Instr → Finset ℕ → Bool}
    {i : Instr} {l S : Finset ℕ} (hl : l ⊆ S)
    (hu : ∀ x ∈ i.uses nr, x ∈ S) : stepLive nr req i l ⊆ S := by
  unfold stepLive
  by_cases h : req i l = true
  · rw [if_pos h]
    intro x hx
    rcases Finset.mem_union.mp hx with hx | hx
    · exact hl (eraseList_subset _ _ hx)
    · exact hu x (List.mem_toFinset.mp hx)
  · rw [if_neg h]
    exact (eraseList_subset _ _).trans hl

theorem transfer_subset_of {nr : ℕ} {req : Instr → Finset ℕ → Bool}
    {instrs : List Instr} {out S : Finset ℕ} (hout : out ⊆ S)
    (hu : ∀ i ∈ instrs, ∀ x ∈ i.uses nr, x ∈ S) :
    transfer nr req instrs out ⊆ S := by
  induction instrs with
  | nil => exact hout
  | cons i rest ih =>
    exact stepLive_subset_of
      (ih fun j hj => hu j (List.mem_cons_of_mem i hj))
      (hu i (List.mem_cons_self i rest))

theorem liveOutOf_subset_of {g : Graph} {L : ℕ → Finset ℕ} {S : Finset ℕ}
    (h : ∀ s, L s ⊆ S) (b : ℕ) : liveOutOf g L b ⊆ S := by
  unfold liveOutOf
  induction succIdxs g b with
  | nil => intro x hx; cases Finset.not_mem_empty x hx
  | cons s rest ih =>
    intro x hx
    rcases Finset.mem_union.mp hx with hx | hx
    · exact h s hx
    · exact ih hx

theorem uses_subset_range {nr : ℕ} {i : Instr} (hwf : WFInstr nr i) :
    ∀ x ∈ i.uses nr, x ∈ Finset.range (nr + 1) := by
  intro x hx
  rw [Finset.mem_range]
  rcases List.mem_append.mp hx with hx | hx
  · exact Nat.lt_succ_of_lt (hwf.1 x hx)
  · by_cases hb : i.readsResultBit = true
    · rw [hb] at hx
      simp only [if_true, List.mem_singleton] at hx
      omega
    · rw [Bool.not_eq_true] at hb
      rw [hb] at hx
      simp at hx

theorem blockAt_wf {g : Graph} (hwf : WFGraph g) (b : ℕ) :
    ∀ i ∈ (blockAt g b).instrs, WFInstr g.numRegs i := by
  rcases Nat.lt_or_ge b g.blocks.length with hb | hb
  · refine hwf _ ?_
    rw [blockAt, List.getD_eq_getElem _ _ hb]
    exact List.getElem_mem hb
  · rw [blockAt, List.getD_eq_default _ _ hb]
    intro i hi
    cases hi

/-- Every live-in the sweep ever computes fits into the `num_regs + 1`
liveness bits. -/
theorem liveIter_subset_range (env : PurityEnv) {g : Graph}
    (hwf : WFGraph g) (k : ℕ) (b : ℕ) :
    liveIter env g k b ⊆ Finset.range (g.numRegs + 1) := by
  induction k generalizing b with
  | zero => intro x hx; simp [liveIter] at hx
  | succ k ih =>
    rw [liveIter, Function.iterate_succ_apply']
    refine transfer_subset_of (liveOutOf_subset_of (fun s => ih s) b) ?_
    intro i hi
    exact uses_subset_range (blockAt_wf hwf b i hi)

theorem sweep_out_of_range (env : PurityEnv) (g : Graph) (L : ℕ → Finset ℕ)
    {b : ℕ} (hb : g.blocks.length ≤ b) : sweep env g L b = ∅ := by
  have hd : blockAt g b = default := by
    rw [blockAt, List.getD_eq_default _ _ hb]
  have h1 : (default : Block).instrs = [] := rfl
  have h2 : (default : Block).succs = [] := rfl
  simp [sweep, transfer, liveOutOf, succIdxs, hd, h1, h2]

theorem liveIter_out_of_range (env : PurityEnv) (g : Graph) (k : ℕ) {b : ℕ}
    (hb : g.blocks.length ≤ b) : liveIter env g k b = ∅ := by
  cases k with
  | zero => rfl
  | succ k =>
    rw [liveIter, Function.iterate_succ_apply']
    exact sweep_out_of_range env g _ hb

theorem totalCard_lt {g : Graph} {L L' : ℕ → Finset ℕ}
    (hmono : ∀ b, L b ⊆ L' b) {b0 : ℕ} (hb0 : b0 < g.blocks.length)
    (hne : L b0 ≠ L' b0) : totalCard g L < totalCard g L' := by
  refine Finset.sum_lt_sum (fun i _ => Finset.card_le_card (hmono i)) ?_
  exact ⟨b0, Finset.mem_range.mpr hb0,
    Finset.card_lt_card (Finset.ssubset_iff_subset_ne.mpr ⟨hmono b0, hne⟩)⟩

theorem totalCard_le_fixSteps {env : PurityEnv} {g : Graph}
    (hwf : WFGraph g) (k : ℕ) :
    totalCard g (liveIter env g k) ≤ fixSteps g := by
  calc totalCard g (liveIter env g k)
      ≤ Finset.sum (Finset.range g.blocks.length) (fun _ => g.numRegs + 1) := by
        refine Finset.sum_le_sum fun b _ => ?_
        calc (liveIter env g k b).card
            ≤ (Finset.range (g.numRegs + 1)).card :=
              Finset.card_le_card (liveIter_subset_range env hwf k b)
          _ = g.numRegs + 1 := Finset.card_range _
    _ = g.blocks.length * (g.numRegs + 1) := by
        rw [Finset.sum_const, smul_eq_mul, Finset.card_range]
    _ = fixSteps g := by rw [fixSteps, Nat.mul_comm]

theorem liveIter_succ_eq (env : PurityEnv) (g : Graph) (k : ℕ) :
    liveIter env g (k + 1) = sweep env g (liveIter env g k) := by
  rw [liveIter, liveIter, Function.iterate_succ_apply']

theorem liveIter_stable_of_eq {env : PurityEnv} {g : Graph} {j : ℕ}
    (h : liveIter env g j = liveIter env g (j + 1)) :
    ∀ m, j ≤ m → liveIter env g m = liveIter env g (m + 1) := by
  intro m hm
  induction m, hm using Nat.le_induction with
  | base => exact h
  | succ m _ ih =>
    rw [liveIter_succ_eq, liveIter_succ_eq, ih]

/-- Modelled from the spec: the fixed-point sweep reaches its fixed point
within `(num_regs + 1) * block_count` sweeps (spec section 8, LocalDce.h
lines 57-60): liveness only grows and is bounded by `num_regs + 1` bits per
block. -/
theorem sweep_liveInFix (env : PurityEnv) (g : Graph) (hwf : WFGraph g) :
    sweep env g (liveInFix env g) = liveInFix env g := by
  rw [liveInFix, ← liveIter_succ_eq]
  by_contra hne
  have hstrict : ∀ j ≤ fixSteps g,
      liveIter env g j ≠ liveIter env g (j + 1) := by
    intro j hj heq
    exact hne (liveIter_stable_of_eq heq _ hj).symm
  have hgrow : ∀ k, k ≤ fixSteps g + 1 →
      k ≤ totalCard g (liveIter env g k) := by
    intro k
    induction k with
    | zero => intro _; exact Nat.zero_le _
    | succ k ih =>
      intro hk
      have hk' : k ≤ fixSteps g := by omega
      have h1 : k ≤ totalCard g (liveIter env g k) := ih (by omega)
      have hne' := hstrict k hk'
      have hdiff : ∃ b, liveIter env g k b ≠ liveIter env g (k + 1) b := by
        by_contra hall
        push_neg at hall
        exact hne' (funext hall)
      rcases hdiff with ⟨b0, hb0ne⟩
      have hb0 : b0 < g.blocks.length := by
        by_contra hge
        push_neg at hge
        rw [liveIter_out_of_range env g k hge,
          liveIter_out_of_range env g (k + 1) hge] at hb0ne
        exact hb0ne rfl
      have := totalCard_lt (liveIter_succ_mono env g k) hb0 hb0ne
      omega
  have hfin := hgrow (fixSteps g + 1) (Nat.le_refl _)
  have hle := @totalCard_le_fixSteps env g hwf (fixSteps g + 1)
  omega

/-- Pointwise fixed-point equation of the computed live-in map: the live-in
of a block is the backward transfer of its instructions applied to the union
of its successors' live-ins. -/
theorem liveInFix_eq {env : PurityEnv} {g : Graph} (hwf : WFGraph g)
    (b : ℕ) :
    liveInFix env g b =
      transfer g.numRegs (reqOf env g) (blockAt g b).instrs
        (liveOutOf g (liveInFix env g) b) :=
  (congrFun (sweep_liveInFix env g hwf) b).symm

theorem liveIter_eq_fix_of_ge {env : PurityEnv} {g : Graph}
    (hwf : WFGraph g) {m : ℕ} (hm : fixSteps g ≤ m) :
    liveIter env g m = liveInFix env g := by
  induction m, hm using Nat.le_induction with
  | base => rfl
  | succ m _ ih => rw [liveIter_succ_eq, ih, sweep_liveInFix env g hwf]

/-- Every sweep's live-in map is below the fixed point. -/
theorem liveIter_le_fix {env : PurityEnv} {g : Graph} (hwf : WFGraph g)
    (k : ℕ) (b : ℕ) : liveIter env g k b ⊆ liveInFix env g b := by
  rcases Nat.le_total k (fixSteps g) with h | h
  · exact liveIter_mono_of_le env g h b
  · rw [liveIter_eq_fix_of_ge hwf h]

theorem stepLive_of_not_def {nr : ℕ} {req : Instr → Finset ℕ → Bool}
    {i : Instr} {l : Finset ℕ} {r : ℕ} (hd : r ∉ i.defs nr) (hr : r ∈ l) :
    r ∈ stepLive nr req i l := by
  unfold stepLive
  have hcl : r ∈ eraseList (i.defs nr) l := mem_eraseList.mpr ⟨hr, hd⟩
  by_cases h : req i l = true
  · rw [if_pos h]
    exact Finset.mem_union_left _ hcl
  · rw [if_neg h]
    exact hcl

/-- A register written by no instruction of a sequence survives the backward
walk of that sequence. -/
theorem transfer_of_not_def {nr : ℕ} {req : Instr → Finset ℕ → Bool}
    {instrs : List Instr} {out : Finset ℕ} {r : ℕ} (hr : r ∈ out)
    (hd : ∀ i ∈ instrs, r ∉ i.defs nr) : r ∈ transfer nr req instrs out := by
  induction instrs with
  | nil => exact hr
  | cons i rest ih =>
    exact stepLive_of_not_def (hd i (List.mem_cons_self i rest))
      (ih fun j hj => hd j (List.mem_cons_of_mem _ hj))

theorem foldr_union_mem_of {L : ℕ → Finset ℕ} {l : List ℕ} {s r : ℕ}
    (hs : s ∈ l) (hr : r ∈ L s) :
    r ∈ l.foldr (fun s acc => L s ∪ acc) ∅ := by
  induction l with
  | nil => cases hs
  | cons t rest ih =>
    rcases List.mem_cons.mp hs with h | h
    · exact Finset.mem_union_left _ (h ▸ hr)
    · exact Finset.mem_union_right _ (ih h)

theorem mem_foldr_union_cases {L : ℕ → Finset ℕ} {l : List ℕ} {r : ℕ}
    (h : r ∈ l.foldr (fun s acc => L s ∪ acc) ∅) : ∃ s ∈ l, r ∈ L s := by
  induction l with
  | nil => cases Finset.not_mem_empty r h
  | cons t rest ih =>
    rcases Finset.mem_union.mp h with h | h
    · exact ⟨t, List.mem_cons_self t rest, h⟩
    · rcases ih h with ⟨s, hs, hrs⟩
      exact ⟨s, List.mem_cons_of_mem _ hs, hrs⟩

theorem liveOut_mem_of_succ {g : Graph} {L : ℕ → Finset ℕ} {b s r : ℕ}
    (hs : s ∈ succIdxs g b) (hr : r ∈ L s) : r ∈ liveOutOf g L b :=
  foldr_union_mem_of hs hr

theorem mem_liveOut_cases {g : Graph} {L : ℕ → Finset ℕ} {b r : ℕ}
    (h : r ∈ liveOutOf g L b) : ∃ s ∈ succIdxs g b, r ∈ L s :=
  mem_foldr_union_cases h

/-- Dissection of membership in a backward block walk: the register is either
read by some instruction that the requirement predicate marks required at its
program point, with no write to the register above that instruction, or it
comes from the live-out set and no instruction of the sequence writes it. -/
theorem transfer_mem_cases {nr : ℕ} {req : Instr → Finset ℕ → Bool}
    {instrs : List Instr} {out : Finset ℕ} {r : ℕ}
    (h : r ∈ transfer nr req instrs out) :
    (∃ pre i post, instrs = pre ++ i :: post ∧
        req i (transfer nr req post out) = true ∧ r ∈ i.uses nr ∧
        ∀ j ∈ pre, r ∉ j.defs nr) ∨
      (r ∈ out ∧ ∀ j ∈ instrs, r ∉ j.defs nr) := by
  induction instrs with
  | nil => exact Or.inr ⟨h, by simp⟩
  | cons i rest ih =>
    have hstep : r ∈ stepLive nr req i (transfer nr req rest out) := h
    have hcleared :
        r ∈ eraseList (i.defs nr) (transfer nr req rest out) →
          (∃ pre j post, i :: rest = pre ++ j :: post ∧
              req j (transfer nr req post out) = true ∧ r ∈ j.uses nr ∧
              ∀ j' ∈ pre, r ∉ j'.defs nr) ∨
            (r ∈ out ∧ ∀ j ∈ i :: rest, r ∉ j.defs nr) := by
      intro hcl
      have hm := mem_eraseList.mp hcl
      rcases ih hm.1 with ⟨pre, j, post, heq, hreq', huse, hpre⟩ | ⟨hout, hall⟩
      · refine Or.inl ⟨i :: pre, j, post, by rw [heq]; rfl, hreq', huse, ?_⟩
        intro j' hj'
        rcases List.mem_cons.mp hj' with h' | h'
        · exact h' ▸ hm.2
        · exact hpre j' h'
      · refine Or.inr ⟨hout, ?_⟩
        intro j hj
        rcases List.mem_cons.mp hj with h' | h'
        · exact h' ▸ hm.2
        · exact hall j h'
    rw [stepLive] at hstep
    by_cases hreq : req i (transfer nr req rest out) = true
    · rw [if_pos hreq] at hstep
      rcases Finset.mem_union.mp hstep with h' | h'
      · exact hcleared h'
      · exact Or.inl ⟨[], i, rest, rfl, hreq, List.mem_toFinset.mp h', by simp⟩
    · rw [if_neg hreq] at hstep
      exact hcleared hstep

/-- Completeness of the fixed point: every bit it sets is justified by a
path use. -/
theorem pathUse_of_mem_liveIter {env : PurityEnv} {g : Graph}
    (hwf : WFGraph g) :
    ∀ k b r, r ∈ liveIter env g k b → PathUse env g b r := by
  intro k
  induction k with
  | zero =>
    intro b r h
    simp [liveIter] at h
  | succ k ih =>
    intro b r h
    rw [liveIter_succ_eq] at h
    rcases transfer_mem_cases h with
      ⟨pre, i, post, heq, hreq, huse, hpre⟩ | ⟨hout, hall⟩
    · refine PathUse.here b r pre i post heq ?_ huse hpre
      refine is_required_mono env g.numRegs i _ _ ?_ hreq
      exact transfer_mono (is_required_mono env g.numRegs) post
        (liveOutOf_mono (fun s => liveIter_le_fix hwf k s) b)
    · rcases mem_liveOut_cases hout with ⟨s, hs, hrs⟩
      exact PathUse.there b r s hs hall (ih s r hrs)

/-- Soundness of the fixed point: every path use is reflected in the
computed live-in bit. -/
theorem mem_liveInFix_of_pathUse {env : PurityEnv} {g : Graph}
    (hwf : WFGraph g) {b r : ℕ} (h : PathUse env g b r) :
    r ∈ liveInFix env g b := by
  induction h with
  | here b r pre i post heq hreq huse hpre =>
    rw [liveInFix_eq hwf b, heq, transfer, List.foldr_append]
    refine transfer_of_not_def ?_ hpre
    show r ∈ stepLive g.numRegs (reqOf env g) i
      (transfer g.numRegs (reqOf env g) post
        (liveOutOf g (liveInFix env g) b))
    rw [stepLive, if_pos hreq]
    exact Finset.mem_union_right _ (List.mem_toFinset.mpr huse)
  | there b r s hs hall hsucc ih =>
    rw [liveInFix_eq hwf b]
    exact transfer_of_not_def (liveOut_mem_of_succ hs ih) hall

/-- A non-required instruction defines no live register and is deletable. -/
theorem not_required_dead {env : PurityEnv} {nr : ℕ} {i : Instr}
    {l : Finset ℕ} (h : is_required env nr i l = false) :
    (∀ d ∈ i.defs nr, d ∉ l) ∧ deletable env i := by
  have h' : ¬is_required env nr i l = true := by simp [h]
  by_cases hc : i.isCall = true
  · rw [is_required_call hc, not_not] at h'
    exact ⟨h'.2, Or.inl ⟨hc, h'.1⟩⟩
  · rw [Bool.not_eq_true] at hc
    rw [is_required_noncall hc] at h'
    push_neg at h'
    refine ⟨h'.2.2, Or.inr ⟨hc, ?_, ?_⟩⟩
    · rw [← Bool.not_eq_true]
      exact h'.1
    · rw [← Bool.not_eq_true]
      exact h'.2.1

theorem execInstr_not_def {ev : EvalFn} {nr : ℕ} {i : Instr} {σ : RegFile}
    {x : ℕ} (h : x ∉ i.defs nr) : execInstr ev nr i σ x = σ x := by
  simp [execInstr, h]

/-- Intra-block simulation: starting from register files that agree on the
block's live-in set, running the block and running its filtered (dead code
deleted) version lands in register files that agree on the live-out set; the
filtered run's events form a subsequence of the original run's events, and
every original event either also happens in the filtered run (same
instruction, same operand values) or belongs to a deletable instruction. -/
theorem runT_filterLive (env : PurityEnv) (nr : ℕ) (ev : EvalFn) :
    ∀ (instrs : List Instr) (out : Finset ℕ) (σ σ' : RegFile),
      Agree (transfer nr (is_required env nr) instrs out) σ σ' →
      Agree out (runT ev nr instrs σ).1
          (runT ev nr (filterLive nr (is_required env nr) instrs out) σ').1 ∧
        List.Sublist
          (runT ev nr (filterLive nr (is_required env nr) instrs out) σ').2
          (runT ev nr instrs σ).2 ∧
        ∀ e ∈ (runT ev nr instrs σ).2,
          e ∈ (runT ev nr
              (filterLive nr (is_required env nr) instrs out) σ').2 ∨
            deletable env e.1 := by
  intro instrs
  induction instrs with
  | nil =>
    intro out σ σ' hA
    exact ⟨hA, List.Sublist.refl _, by simp [runT, filterLive]⟩
  | cons i rest ih =>
    intro out σ σ' hA
    by_cases hreq :
        is_required env nr i (transfer nr (is_required env nr) rest out) = true
    · have hfl : filterLive nr (is_required env nr) (i :: rest) out =
          i :: filterLive nr (is_required env nr) rest out := by
        rw [filterLive, if_pos hreq]
      have hargs : (i.uses nr).map σ = (i.uses nr).map σ' := by
        refine List.map_congr_left fun x hx => ?_
        refine hA x ?_
        show x ∈ stepLive nr (is_required env nr) i
          (transfer nr (is_required env nr) rest out)
        rw [stepLive, if_pos hreq]
        exact Finset.mem_union_right _ (List.mem_toFinset.mpr hx)
      have hA' : Agree (transfer nr (is_required env nr) rest out)
          (execInstr ev nr i σ) (execInstr ev nr i σ') := by
        intro x hx
        by_cases hd : x ∈ i.defs nr
        · simp [execInstr, hd, hargs]
        · rw [execInstr_not_def hd, execInstr_not_def hd]
          exact hA x (stepLive_of_not_def hd hx)
      rcases ih out (execInstr ev nr i σ) (execInstr ev nr i σ') hA' with
        ⟨h1, h2, h3⟩
      rw [hfl]
      refine ⟨h1, ?_, ?_⟩
      · show List.Sublist
            ((i, (i.uses nr).map σ') ::
              (runT ev nr (filterLive nr (is_required env nr) rest out)
                (execInstr ev nr i σ')).2)
            ((i, (i.uses nr).map σ) ::
              (runT ev nr rest (execInstr ev nr i σ)).2)
        rw [← hargs]
        exact List.Sublist.cons₂ _ h2
      · intro e he
        rcases List.mem_cons.mp he with he | he
        · left
          rw [he]
          show (i, (i.uses nr).map σ) ∈ (i, (i.uses nr).map σ') :: _
          rw [hargs]
          exact List.mem_cons_self _ _
        · rcases h3 e he with h | h
          · left
            exact List.mem_cons_of_mem _ h
          · right
            exact h
    · have hreq' :
          is_required env nr i (transfer nr (is_required env nr) rest out) =
            false := by
        rw [← Bool.not_eq_true]
        exact hreq
      have hfl : filterLive nr (is_required env nr) (i :: rest) out =
          filterLive nr (is_required env nr) rest out := by
        rw [filterLive, if_neg hreq]
      rcases not_required_dead hreq' with ⟨hdefs, hdel⟩
      have hA' : Agree (transfer nr (is_required env nr) rest out)
          (execInstr ev nr i σ) σ' := by
        intro x hx
        have hxd : x ∉ i.defs nr := fun hd => hdefs x hd hx
        rw [execInstr_not_def hxd]
        exact hA x (stepLive_of_not_def hxd hx)
      rcases ih out (execInstr ev nr i σ) σ' hA' with ⟨h1, h2, h3⟩
      rw [hfl]
      refine ⟨h1, List.Sublist.cons _ h2, ?_⟩
      intro e he
      rcases List.mem_cons.mp he with he | he
      · right
        rw [he]
        exact hdel
      · rcases h3 e he with h | h
        · left
          exact h
        · right
          exact h

theorem dceGraph_numRegs (env : PurityEnv) (g : Graph) :
    (dceGraph env g).numRegs = g.numRegs := rfl

theorem blockAt_dceGraph (env : PurityEnv) (g : Graph) (b : ℕ) :
    blockAt (dceGraph env g) b =
      ⟨filterLive g.numRegs (reqOf env g) (blockAt g b).instrs
          (liveOutOf g (liveInFix env g) b),
        (blockAt g b).succs, (blockAt g b).isCatchHandler⟩ := by
  rcases Nat.lt_or_ge b g.blocks.length with hb | hb
  · have hlen : b < (dceGraph env g).blocks.length := by
      simpa [dceGraph] using hb
    rw [blockAt, List.getD_eq_getElem _ _ hlen]
    simp [dceGraph]
  · have h2 : blockAt g b = default := by
      rw [blockAt, List.getD_eq_default _ _ hb]
    have h1 : blockAt (dceGraph env g) b = default := by
      rw [blockAt, List.getD_eq_default]
      simpa [dceGraph] using hb
    rw [h1, h2]
    rfl

theorem succIdxs_dceGraph (env : PurityEnv) (g : Graph) (b : ℕ) :
    succIdxs (dceGraph env g) b = succIdxs g b := by
  rw [succIdxs, blockAt_dceGraph]
  rfl

/-- Path simulation: from register files agreeing on the live-in of the
path's first block, running the path on the original graph and on the graph
with the non-required instructions deleted preserves agreement on the
live-out of the path's last block; the events of the run over the reduced
graph form a subsequence of the original run's events, and every original
event either recurs in the reduced run with identical operand values or
belongs to a deletable instruction. -/
theorem runBlocks_dce (env : PurityEnv) {g : Graph} (ev : EvalFn)
    (hwf : WFGraph g) :
    ∀ (p : List ℕ) (b : ℕ) (σ σ' : RegFile), chainOK g b p →
      Agree (liveInFix env g b) σ σ' →
      Agree (liveOutOf g (liveInFix env g) (p.getLastD b))
          (runBlocks ev g (b :: p) σ).1
          (runBlocks ev (dceGraph env g) (b :: p) σ').1 ∧
        List.Sublist (runBlocks ev (dceGraph env g) (b :: p) σ').2
          (runBlocks ev g (b :: p) σ).2 ∧
        ∀ e ∈ (runBlocks ev g (b :: p) σ).2,
          e ∈ (runBlocks ev (dceGraph env g) (b :: p) σ').2 ∨
            deletable env e.1 := by
  intro p
  induction p with
  | nil =>
    intro b σ σ' _ hA
    have hstart : Agree (transfer g.numRegs (is_required env g.numRegs)
        (blockAt g b).instrs (liveOutOf g (liveInFix env g) b)) σ σ' := by
      rw [show transfer g.numRegs (is_required env g.numRegs) =
          transfer g.numRegs (reqOf env g) from rfl, ← liveInFix_eq hwf b]
      exact hA
    rcases runT_filterLive env g.numRegs ev (blockAt g b).instrs
        (liveOutOf g (liveInFix env g) b) σ σ' hstart with ⟨h1, h2, h3⟩
    have hinst : (blockAt (dceGraph env g) b).instrs =
        filterLive g.numRegs (is_required env g.numRegs) (blockAt g b).instrs
          (liveOutOf g (liveInFix env g) b) := by
      rw [blockAt_dceGraph]
      rfl
    simp only [runBlocks, dceGraph_numRegs, hinst, List.append_nil,
      List.getLastD]
    exact ⟨h1, h2, h3⟩
  | cons c rest ih =>
    intro b σ σ' hc hA
    rcases hc with ⟨hedge, hrest⟩
    have hstart : Agree (transfer g.numRegs (is_required env g.numRegs)
        (blockAt g b).instrs (liveOutOf g (liveInFix env g) b)) σ σ' := by
      rw [show transfer g.numRegs (is_required env g.numRegs) =
          transfer g.numRegs (reqOf env g) from rfl, ← liveInFix_eq hwf b]
      exact hA
    rcases runT_filterLive env g.numRegs ev (blockAt g b).instrs
        (liveOutOf g (liveInFix env g) b) σ σ' hstart with ⟨h1, h2, h3⟩
    have hinst : (blockAt (dceGraph env g) b).instrs =
        filterLive g.numRegs (is_required env g.numRegs) (blockAt g b).instrs
          (liveOutOf g (liveInFix env g) b) := by
      rw [blockAt_dceGraph]
      rfl
    have hA2 : Agree (liveInFix env g c)
        (runT ev g.numRegs (blockAt g b).instrs σ).1
        (runT ev g.numRegs
          (filterLive g.numRegs (is_required env g.numRegs)
            (blockAt g b).instrs (liveOutOf g (liveInFix env g) b)) σ').1 :=
      fun x hx => h1 x (liveOut_mem_of_succ hedge hx)
    rcases ih c (runT ev g.numRegs (blockAt g b).instrs σ).1
        (runT ev g.numRegs
          (filterLive g.numRegs (is_required env g.numRegs)
            (blockAt g b).instrs (liveOutOf g (liveInFix env g) b)) σ').1
        hrest hA2 with ⟨g1, g2, g3⟩
    simp only [runBlocks, dceGraph_numRegs, hinst, List.getLastD_cons]
    refine ⟨g1, List.Sublist.append h2 g2, ?_⟩
    intro e he
    rcases List.mem_append.mp he with he | he
    · rcases h3 e he with h | h
      · left
        exact List.mem_append_left _ h
      · right
        exact h
    · rcases g3 e he with h | h
      · left
        exact List.mem_append_right _ h
      · right
        exact h

theorem analyzeBlock_fst (nr : ℕ) (req : Instr → Finset ℕ → Bool) :
    ∀ (instrs : List Instr) (out : Finset ℕ),
      (analyzeBlock nr req instrs out).1 = transfer nr req instrs out := by
  intro instrs
  induction instrs with
  | nil => intro out; rfl
  | cons i rest ih =>
    intro out
    show (analyzeBlock nr req (i :: rest) out).1 =
      stepLive nr req i (transfer nr req rest out)
    rw [analyzeBlock]
    by_cases h : req i (analyzeBlock nr req rest out).1 = true
    · rw [if_pos h, ih out]
    · rw [if_neg h, ih out]

theorem analyzeBlock_cons_pos (nr : ℕ) (req : Instr → Finset ℕ → Bool)
    {i : Instr} {rest : List Instr} {out : Finset ℕ}
    (hq : req i (transfer nr req rest out) = true) :
    (analyzeBlock nr req (i :: rest) out).2 =
      (analyzeBlock nr req rest out).2.map (· + 1) := by
  simp only [analyzeBlock, analyzeBlock_fst]
  rw [if_pos hq]

theorem analyzeBlock_cons_neg (nr : ℕ) (req : Instr → Finset ℕ → Bool)
    {i : Instr} {rest : List Instr} {out : Finset ℕ}
    (hq : req i (transfer nr req rest out) = false) :
    (analyzeBlock nr req (i :: rest) out).2 =
      (analyzeBlock nr req rest out).2.map (· + 1) ++ [0] := by
  simp only [analyzeBlock, analyzeBlock_fst]
  rw [if_neg (by rw [hq]; exact Bool.false_ne_true)]

/-- Membership in the collected dead-position list characterises exactly the
non-required instructions at their program point. -/
theorem analyzeBlock_mem (nr : ℕ) (req : Instr → Finset ℕ → Bool) :
    ∀ (instrs : List Instr) (out : Finset ℕ) (k : ℕ),
      k ∈ (analyzeBlock nr req instrs out).2 ↔
        ∃ pre i post, instrs = pre ++ i :: post ∧ k = pre.length ∧
          req i (transfer nr req post out) = false := by
  intro instrs
  induction instrs with
  | nil =>
    intro out k
    constructor
    · intro h
      cases h
    · intro ⟨pre, i, post, heq, _, _⟩
      exact absurd heq.symm (List.append_ne_nil_of_right_ne_nil pre
        (List.cons_ne_nil i post))
  | cons i rest ih =>
    intro out k
    have hrw : req i (analyzeBlock nr req rest out).1 =
        req i (transfer nr req rest out) := by
      rw [analyzeBlock_fst]
    constructor
    · intro h
      rw [analyzeBlock] at h
      by_cases hq : req i (analyzeBlock nr req rest out).1 = true
      · rw [if_pos hq] at h
        rcases List.mem_map.mp h with ⟨k', hk', hkk⟩
        rcases (ih out k').mp hk' with ⟨pre, j, post, heq, hlen, hreq⟩
        exact ⟨i :: pre, j, post, by rw [heq]; rfl,
          by rw [List.length_cons]; omega, hreq⟩
      · rw [if_neg hq] at h
        rcases List.mem_append.mp h with h | h
        · rcases List.mem_map.mp h with ⟨k', hk', hkk⟩
          rcases (ih out k').mp hk' with ⟨pre, j, post, heq, hlen, hreq⟩
          exact ⟨i :: pre, j, post, by rw [heq]; rfl,
            by rw [List.length_cons]; omega, hreq⟩
        · have hk0 : k = 0 := by
            rcases List.mem_singleton.mp h with h
            exact h
          refine ⟨[], i, rest, rfl, hk0, ?_⟩
          rw [← Bool.not_eq_true, ← hrw]
          exact hq
    · intro ⟨pre, j, post, heq, hlen, hreq⟩
      rw [analyzeBlock]
      cases pre with
      | nil =>
        have hj : j = i := by
          injection heq.symm
        have hpost : rest = post := by
          injection heq.symm with h1 h2
          exact h2.symm
        have hq : req i (analyzeBlock nr req rest out).1 = false := by
          rw [hrw, hpost]
          rw [hj] at hreq
          exact hreq
        rw [if_neg (by rw [hq]; exact Bool.false_ne_true)]
        refine List.mem_append_right _ ?_
        rw [hlen]
        exact List.mem_singleton.mpr rfl
      | cons p pre' =>
        have hp : p = i := by
          injection heq with h1 _
          exact h1.symm
        have hrest : rest = pre' ++ j :: post := by
          injection heq with _ h2
        have hk' : k = pre'.length + 1 := by
          rw [hlen]
          rfl
        have hmem' : pre'.length ∈ (analyzeBlock nr req rest out).2 :=
          (ih out pre'.length).mpr ⟨pre', j, post, hrest, rfl, hreq⟩
        by_cases hq : req i (analyzeBlock nr req rest out).1 = true
        · rw [if_pos hq]
          exact List.mem_map.mpr ⟨pre'.length, hmem', by omega⟩
        · rw [if_neg hq]
          exact List.mem_append_left _
            (List.mem_map.mpr ⟨pre'.length, hmem', by omega⟩)

/-- The positions collected for a block are strictly descending. -/
theorem analyzeBlock_sorted (nr : ℕ) (req : Instr → Finset ℕ → Bool) :
    ∀ (instrs : List Instr) (out : Finset ℕ),
      List.Sorted (· > ·) (analyzeBlock nr req instrs out).2 := by
  intro instrs
  induction instrs with
  | nil => intro out; exact List.sorted_nil
  | cons i rest ih =>
    intro out
    have hmap : List.Sorted (· > ·)
        ((analyzeBlock nr req rest out).2.map (· + 1)) := by
      refine List.Pairwise.map _ (fun a b hab => ?_) (ih out)
      omega
    by_cases hq : req i (transfer nr req rest out) = true
    · rw [analyzeBlock_cons_pos nr req hq]
      exact hmap
    · rw [analyzeBlock_cons_neg nr req (by rw [← Bool.not_eq_true]; exact hq)]
      refine List.pairwise_append.mpr ⟨hmap, List.pairwise_singleton _ _, ?_⟩
      intro a ha b hb
      rcases List.mem_map.mp ha with ⟨a', _, haa⟩
      rcases List.mem_singleton.mp hb with rfl
      omega

/-- Deleting the collected positions and keeping the required instructions
partition each block: the kept and the dead instruction counts add up. -/
theorem analyzeBlock_filterLive_length (nr : ℕ)
    (req : Instr → Finset ℕ → Bool) :
    ∀ (instrs : List Instr) (out : Finset ℕ),
      (filterLive nr req instrs out).length +
          (analyzeBlock nr req instrs out).2.length = instrs.length := by
  intro instrs
  induction instrs with
  | nil => intro out; rfl
  | cons i rest ih =>
    intro out
    by_cases hq : req i (transfer nr req rest out) = true
    · rw [filterLive, if_pos hq, analyzeBlock_cons_pos nr req hq]
      simp only [List.length_cons, List.length_map]
      have := ih out
      omega
    · rw [filterLive, if_neg hq,
        analyzeBlock_cons_neg nr req (by rw [← Bool.not_eq_true]; exact hq)]
      simp only [List.length_cons, List.length_append, List.length_map,
        List.length_singleton, List.length_nil]
      have := ih out
      omega


theorem assumenosideeffects_of_pure {env : PurityEnv} {i : Instr}
    (h : i.callee ∈ env.pureMethods) : assumenosideeffects env i = true := by
  rw [assumenosideeffects, if_pos h]

/-- C9: `Stats::operator+=` (LocalDce.h lines 33-40) merges two `Stats`
values by adding each of the five counters independently, and the merge is
associative and commutative field-wise. -/
theorem stats_merge_monoid :
    (∀ a b : Stats,
      (a.add b).npe_instruction_count =
          a.npe_instruction_count + b.npe_instruction_count ∧
        (a.add b).dead_instruction_count =
          a.dead_instruction_count + b.dead_instruction_count ∧
        (a.add b).unreachable_instruction_count =
          a.unreachable_instruction_count + b.unreachable_instruction_count ∧
        (a.add b).aliased_new_instances =
          a.aliased_new_instances + b.aliased_new_instances ∧
        (a.add b).normalized_new_instances =
          a.normalized_new_instances + b.normalized_new_instances) ∧
      (∀ a b c : Stats, (a.add b).add c = a.add (b.add c)) ∧
      ∀ a b : Stats, a.add b = b.add a := by
  refine ⟨fun a b => ⟨rfl, rfl, rfl, rfl, rfl⟩, fun a b c => ?_, fun a b => ?_⟩
  · simp [Stats.add, Nat.add_assoc]
  · simp [Stats.add, Nat.add_comm]

/-- C10: a default-constructed `Stats` (all `{0}` member initialisers,
LocalDce.h lines 27-31) has all five counters zero and is a two-sided
identity for the merge. -/
theorem stats_init_identity :
    Stats.init.npe_instruction_count = 0 ∧
      Stats.init.dead_instruction_count = 0 ∧
      Stats.init.unreachable_instruction_count = 0 ∧
      Stats.init.aliased_new_instances = 0 ∧
      Stats.init.normalized_new_instances = 0 ∧
      (∀ s : Stats, s.add Stats.init = s) ∧
      ∀ s : Stats, Stats.init.add s = s := by
  refine ⟨rfl, rfl, rfl, rfl, rfl, fun s => ?_, fun s => ?_⟩
  · cases s
    simp [Stats.add, Stats.init]
  · cases s
    simp [Stats.add, Stats.init]

/-- C3: for every well-formed graph, each block's live-in set is monotone
non-decreasing across sweeps, and the backward fixed-point liveness sweep
reaches its fixed point within `(num_regs + 1) * block_count` sweeps: the
map after that many sweeps is a fixed point of the sweep, so the iteration
terminates within that bound. -/
theorem liveness_sweep_monotone_terminates (env : PurityEnv) (g : Graph)
    (hwf : WFGraph g) :
    (∀ k b, liveIter env g k b ⊆ liveIter env g (k + 1) b) ∧
      sweep env g (liveIter env g (fixSteps g)) =
        liveIter env g (fixSteps g) :=
  ⟨liveIter_succ_mono env g, sweep_liveInFix env g hwf⟩

theorem liveness_sweep_monotone_terminates_witness :
    WFGraph gScenario1 ∧
      ((∀ k b, liveIter env0 gScenario1 k b ⊆
          liveIter env0 gScenario1 (k + 1) b) ∧
        sweep env0 gScenario1 (liveIter env0 gScenario1 (fixSteps gScenario1)) =
          liveIter env0 gScenario1 (fixSteps gScenario1)) :=
  ⟨by decide, liveness_sweep_monotone_terminates env0 gScenario1 (by decide)⟩

/-- C4: a call instruction is required exactly when it is not both certified
side-effect-free by the Purity Oracle and dead in its result registers; in
particular a side-effect-free call whose result is live is still required,
and a non-virtual call to a method of the pure-callable set whose result is
not live after it is deleted by the deletion phase. -/
theorem call_requirement (env : PurityEnv) (nr : ℕ) (i : Instr)
    (l : Finset ℕ) (hc : i.isCall = true) :
    (is_required env nr i l = true ↔
        ¬(assumenosideeffects env i = true ∧ ∀ d ∈ i.defs nr, d ∉ l)) ∧
      (assumenosideeffects env i = true → (∃ d ∈ i.defs nr, d ∈ l) →
        is_required env nr i l = true) ∧
      ∀ (rest : List Instr) (out : Finset ℕ),
        i.isVirtual = false → i.callee ∈ env.pureMethods →
        (∀ d ∈ i.defs nr, d ∉ transfer nr (is_required env nr) rest out) →
        filterLive nr (is_required env nr) (i :: rest) out =
          filterLive nr (is_required env nr) rest out := by
  refine ⟨is_required_call hc, ?_, ?_⟩
  · intro hsef hex
    rcases hex with ⟨d, hd, hmem⟩
    rw [is_required_call hc]
    intro hcon
    exact hcon.2 d hd hmem
  · intro rest out _ hpure hdead
    have hreq : ¬is_required env nr i
        (transfer nr (is_required env nr) rest out) = true := by
      rw [is_required_call hc]
      exact not_not_intro ⟨assumenosideeffects_of_pure hpure, hdead⟩
    rw [filterLive, if_neg hreq]

theorem call_requirement_witness :
    (mkCall 0 false []).isCall = true ∧
      ((is_required envPure 1 (mkCall 0 false []) ∅ = true ↔
          ¬(assumenosideeffects envPure (mkCall 0 false []) = true ∧
            ∀ d ∈ (mkCall 0 false []).defs 1, d ∉ (∅ : Finset ℕ))) ∧
        (assumenosideeffects envPure (mkCall 0 false []) = true →
          (∃ d ∈ (mkCall 0 false []).defs 1, d ∈ (∅ : Finset ℕ)) →
          is_required envPure 1 (mkCall 0 false []) ∅ = true) ∧
        ∀ (rest : List Instr) (out : Finset ℕ),
          (mkCall 0 false []).isVirtual = false →
          (mkCall 0 false []).callee ∈ envPure.pureMethods →
          (∀ d ∈ (mkCall 0 false []).defs 1,
            d ∉ transfer 1 (is_required envPure 1) rest out) →
          filterLive 1 (is_required envPure 1) (mkCall 0 false [] :: rest)
              out =
            filterLive 1 (is_required envPure 1) rest out) :=
  ⟨rfl, call_requirement envPure 1 (mkCall 0 false []) ∅ rfl⟩

/-- C5 (amended): a call whose callee reference is in the pure-callable set
is side-effect-free; a virtual call, when an override graph is available, is
side-effect-free if and only if its callee reference is in the pure-callable
set or every possible overriding method reference is in the pure-callable
set; when the override graph is absent the virtual-purity extension is
disabled (a virtual call is side-effect-free only through its callee's own
membership); otherwise the call is not side-effect-free. -/
theorem purity_oracle_contract (env : PurityEnv) (i : Instr) :
    (i.callee ∈ env.pureMethods → assumenosideeffects env i = true) ∧
      (∀ og, env.overrideGraph = some og → i.isVirtual = true →
        (assumenosideeffects env i = true ↔
          (i.callee ∈ env.pureMethods ∨
            ∀ m ∈ og i.callee, m ∈ env.pureMethods))) ∧
      (env.overrideGraph = none → i.isVirtual = true →
        (assumenosideeffects env i = true ↔ i.callee ∈ env.pureMethods)) ∧
      (i.isVirtual = false →
        (assumenosideeffects env i = true ↔ i.callee ∈ env.pureMethods)) := by
  refine ⟨fun h => assumenosideeffects_of_pure h, ?_, ?_, ?_⟩
  · intro og hog hv
    by_cases hp : i.callee ∈ env.pureMethods
    · simp [assumenosideeffects_of_pure hp, hp]
    · simp [assumenosideeffects, hp, hv, hog, List.all_eq_true]
  · intro hog hv
    by_cases hp : i.callee ∈ env.pureMethods
    · simp [assumenosideeffects_of_pure hp, hp]
    · simp [assumenosideeffects, hp, hv, hog]
  · intro hv
    by_cases hp : i.callee ∈ env.pureMethods
    · simp [assumenosideeffects_of_pure hp, hp]
    · simp [assumenosideeffects, hp, hv]

theorem purity_oracle_contract_witness :
    callVirt.callee ∈ envVirt.pureMethods ∧
      assumenosideeffects envVirt callVirt = true :=
  ⟨by decide, (purity_oracle_contract envVirt callVirt).1 (by decide)⟩

/-- C5 as literally stated is false: a virtual call with an override graph
available is certified side-effect-free although one of its possible
overriders is not in the pure-callable set, because its callee reference is
itself in the set — the stated "side-effect-free if and only if every
possible overriding method reference is also in the pure-callable set"
fails in the only-if direction. -/
theorem purity_oracle_contract_cex :
    callVirt.isVirtual = true ∧
      envVirt.overrideGraph = some (fun _ => [1]) ∧
      assumenosideeffects envVirt callVirt = true ∧
      ¬∀ m ∈ ([1] : List ℕ), m ∈ envVirt.pureMethods :=
  ⟨rfl, rfl, by decide, by decide⟩

/-- C6 (amended): for a register `r` live-in to a catch handler reached from
block `b` by a throw edge: if no instruction of `b` writes `r` then `r` is
live at every point of `b` (the analysis keeps it live throughout the try
block); and any instruction of `b` whose destination is `r` and that is not
followed in `b` by another write to `r` is required, even when no
instruction of `b` reads `r`. -/
theorem catch_region_conservative (env : PurityEnv) {g : Graph}
    (hwf : WFGraph g) (b h r : ℕ)
    (hedge : (EdgeKind.throwEdge, h) ∈ (blockAt g b).succs)
    (hcatch : (blockAt g h).isCatchHandler = true)
    (hlive : r ∈ liveInFix env g h) :
    ((∀ j ∈ (blockAt g b).instrs, r ∉ j.defs g.numRegs) →
        ∀ pre post, (blockAt g b).instrs = pre ++ post →
          r ∈ transfer g.numRegs (reqOf env g) post
            (liveOutOf g (liveInFix env g) b)) ∧
      ∀ pre i post, (blockAt g b).instrs = pre ++ i :: post →
        i.dest = some r →
        (∀ j ∈ post, r ∉ j.defs g.numRegs) →
        is_required env g.numRegs i
          (transfer g.numRegs (reqOf env g) post
            (liveOutOf g (liveInFix env g) b)) = true := by
  have hsucc : h ∈ succIdxs g b :=
    List.mem_map.mpr ⟨(EdgeKind.throwEdge, h), hedge, rfl⟩
  have hout : r ∈ liveOutOf g (liveInFix env g) b :=
    liveOut_mem_of_succ hsucc hlive
  constructor
  · intro hnod pre post heq
    refine transfer_of_not_def hout ?_
    intro j hj
    exact hnod j (heq ▸ List.mem_append_right pre hj)
  · intro pre i post heq hdest hpost
    have hin : r ∈ transfer g.numRegs (reqOf env g) post
        (liveOutOf g (liveInFix env g) b) := transfer_of_not_def hout hpost
    have hdefmem : r ∈ i.defs g.numRegs := by
      simp [Instr.defs, hdest]
    by_cases hc : i.isCall = true
    · rw [show is_required env g.numRegs = reqOf env g from rfl]
      rw [show reqOf env g = is_required env g.numRegs from rfl]
      rw [is_required_call hc]
      intro hcon
      exact hcon.2 r hdefmem hin
    · rw [Bool.not_eq_true] at hc
      rw [is_required_noncall hc]
      exact Or.inr (Or.inr ⟨r, hdefmem, hin⟩)

theorem catch_region_conservative_witness :
    WFGraph gTwoWrites ∧
      (EdgeKind.throwEdge, 1) ∈ (blockAt gTwoWrites 0).succs ∧
      (blockAt gTwoWrites 1).isCatchHandler = true ∧
      (0 : ℕ) ∈ liveInFix env0 gTwoWrites 1 ∧
      is_required env0 gTwoWrites.numRegs (mkConst 0)
        (transfer gTwoWrites.numRegs (reqOf env0 gTwoWrites) [mkRet []]
          (liveOutOf gTwoWrites (liveInFix env0 gTwoWrites) 0)) = true :=
  ⟨by decide, by decide, rfl, by decide,
    (@catch_region_conservative env0 gTwoWrites (by decide) 0 1 0 (by decide)
        (by decide) (by decide)).2 [mkConst 0] (mkConst 0) [mkRet []] rfl rfl
      (by intro j hj; rcases List.mem_singleton.mp hj with rfl; decide)⟩

/-- C6 as literally stated is false: in a block that writes the
handler-live register twice, the earlier write is not required — only the
last write to the register before the block's end is kept; "any instruction
in such a block that writes that register is required" fails at the first
write. -/
theorem catch_region_conservative_cex :
    (0 : ℕ) ∈ liveInFix env0 gTwoWrites 1 ∧
      (EdgeKind.throwEdge, 1) ∈ (blockAt gTwoWrites 0).succs ∧
      (blockAt gTwoWrites 0).instrs =
        [] ++ mkConst 0 :: [mkConst 0, mkRet []] ∧
      (mkConst 0).dest = some 0 ∧
      is_required env0 1 (mkConst 0)
        (transfer 1 (reqOf env0 gTwoWrites) [mkConst 0, mkRet []]
          (liveOutOf gTwoWrites (liveInFix env0 gTwoWrites) 0)) = false :=
  ⟨by decide, by decide, rfl, rfl, by decide⟩

/-- C2 (amended): for every well-formed graph and block, the computed
live-in bitvector has a register's bit set if and only if, along some path
of successor edges (throw edges to reachable catch handlers included), some
instruction classified required reads the register — as a source register,
or the synthetic result slot for a move-result — before any instruction on
the path writes it; and function-call results are tracked as the extra
liveness bit at index `num_regs`: a required instruction reading the result
slot makes bit `num_regs` live, and an instruction producing a pending
result without reading it kills bit `num_regs`. -/
theorem liveness_engine_contract (env : PurityEnv) {g : Graph}
    (hwf : WFGraph g) :
    (∀ b r, r ∈ liveInFix env g b ↔ PathUse env g b r) ∧
      (∀ (i : Instr) (l : Finset ℕ), i.readsResultBit = true →
        reqOf env g i l = true →
        g.numRegs ∈ stepLive g.numRegs (reqOf env g) i l) ∧
      ∀ (i : Instr) (l : Finset ℕ), i.writesResultBit = true →
        i.readsResultBit = false → (∀ s ∈ i.srcs, s < g.numRegs) →
        g.numRegs ∉ stepLive g.numRegs (reqOf env g) i l := by
  refine ⟨fun b r =>
    ⟨fun hmem => pathUse_of_mem_liveIter hwf (fixSteps g) b r hmem,
      fun hpu => mem_liveInFix_of_pathUse hwf hpu⟩, ?_, ?_⟩
  · intro i l hread hreq
    rw [stepLive, if_pos hreq]
    refine Finset.mem_union_right _ (List.mem_toFinset.mpr ?_)
    simp [Instr.uses, hread]
  · intro i l hw hnr hsrcs
    have hnm : g.numRegs ∉ (i.uses g.numRegs).toFinset := by
      rw [List.mem_toFinset]
      intro hmem
      have huses : i.uses g.numRegs = i.srcs := by
        simp [Instr.uses, hnr]
      rw [huses] at hmem
      exact absurd (hsrcs _ hmem) (lt_irrefl _)
    have hcl : g.numRegs ∉ eraseList (i.defs g.numRegs) l := by
      rw [mem_eraseList]
      intro hcon
      refine hcon.2 ?_
      simp [Instr.defs, hw]
    rw [stepLive]
    by_cases hq : reqOf env g i l = true
    · rw [if_pos hq]
      intro hmem
      rcases Finset.mem_union.mp hmem with hmem | hmem
      · exact hcl hmem
      · exact hnm hmem
    · rw [if_neg hq]
      exact hcl

theorem liveness_engine_contract_witness :
    WFGraph gScenario1 ∧
      ((0 : ℕ) ∈ liveInFix env0 gScenario1 0 ↔ PathUse env0 gScenario1 0 0) :=
  ⟨by decide, (liveness_engine_contract env0 (by decide)).1 0 0⟩

/-- C2 as literally stated is false: in `[r1 := move r0; return]` some path
starting at the block reads `r0` before it is next written (the move reads
it, and nothing writes it), yet the computed live-in of the block does not
contain `r0`, because the move itself is not required — only reads by
required instructions make a register live. -/
theorem liveness_engine_contract_cex :
    NaiveReads gMove 2 0 0 ∧ (0 : ℕ) ∉ liveInFix env0 gMove 0 :=
  ⟨NaiveReads.here 0 0 [] (mkMove 1 0) [mkRet []] rfl (by decide)
    (by intro j hj; cases hj), by decide⟩

/-- C1 (amended): for every well-formed graph, every value semantics, and
every path through the graph, deleting exactly the instructions the
Requirement Classifier marks non-required preserves agreement of the final
register files on every register live at the path's end — in particular the
live-out register state at every exit block is unchanged — and the reduced
run's events form a subsequence of the original run's events with identical
operand values; every event lost belongs to a deletable instruction
(a side-effect-free call, or a throw-free effect-free non-call), so the
only exceptions that can disappear are those of deleted side-effect-free
calls, and every other potentially-throwing instruction still executes with
the same operands. -/
theorem dce_soundness (env : PurityEnv) {g : Graph} (ev : EvalFn)
    (hwf : WFGraph g) (b : ℕ) (p : List ℕ) (σ σ' : RegFile)
    (hp : chainOK g b p) (hA : Agree (liveInFix env g b) σ σ') :
    Agree (liveOutOf g (liveInFix env g) (p.getLastD b))
        (runBlocks ev g (b :: p) σ).1
        (runBlocks ev (dceGraph env g) (b :: p) σ').1 ∧
      List.Sublist (runBlocks ev (dceGraph env g) (b :: p) σ').2
        (runBlocks ev g (b :: p) σ).2 ∧
      ∀ e ∈ (runBlocks ev g (b :: p) σ).2,
        e ∈ (runBlocks ev (dceGraph env g) (b :: p) σ').2 ∨
          deletable env e.1 :=
  runBlocks_dce env ev hwf p b σ σ' hp hA

theorem dce_soundness_witness :
    WFGraph gScenario1 ∧ chainOK gScenario1 0 [] ∧
      Agree (liveInFix env0 gScenario1 0) sigmaZero sigmaZero ∧
      (Agree (liveOutOf gScenario1 (liveInFix env0 gScenario1)
            (([] : List ℕ).getLastD 0))
          (runBlocks evZero gScenario1 [0] sigmaZero).1
          (runBlocks evZero (dceGraph env0 gScenario1) [0] sigmaZero).1 ∧
        List.Sublist
          (runBlocks evZero (dceGraph env0 gScenario1) [0] sigmaZero).2
          (runBlocks evZero gScenario1 [0] sigmaZero).2 ∧
        ∀ e ∈ (runBlocks evZero gScenario1 [0] sigmaZero).2,
          e ∈ (runBlocks evZero (dceGraph env0 gScenario1) [0] sigmaZero).2 ∨
            deletable env0 e.1) :=
  ⟨by decide, trivial, fun x _ => rfl,
    dce_soundness env0 evZero (by decide) 0 [] sigmaZero sigmaZero trivial
      (fun x _ => rfl)⟩

/-- C1 as literally stated is false: deleting only non-required instructions
can change the set of exceptions that can propagate out of the method — a
side-effect-free may-throw call whose result is dead is deleted, and the
may-throw event it contributed disappears from the run. -/
theorem dce_soundness_cex :
    (runBlocks evZero (dceGraph envPure gCall) [0] sigmaZero).2.filter
        (fun e => e.1.mayThrow) ≠
      (runBlocks evZero gCall [0] sigmaZero).2.filter
        (fun e => e.1.mayThrow) := by
  decide

/-- C8: for every graph, block subset, successor function and requirement
predicate, the generic query returns the graph unchanged together with the
list of (block, instruction-position) pairs that would be deleted: a pair is
in the list exactly when the instruction at that position is non-required
against the query's computed liveness; per block the collected positions are
strictly descending (the order of the reverse walk); and per block the kept
and collected instruction counts partition the block. -/
theorem get_dead_instructions_spec (g : Graph) (bs : List ℕ)
    (succs : ℕ → List ℕ) (req : Instr → Finset ℕ → Bool) :
    (get_dead_instructions g bs succs req).1 = g ∧
      (∀ b k, (b, k) ∈ (get_dead_instructions g bs succs req).2 ↔
        (b ∈ bs ∧ ∃ pre i post, (blockAt g b).instrs = pre ++ i :: post ∧
          k = pre.length ∧
          req i (transfer g.numRegs req post (gdiOut g succs req b)) =
            false)) ∧
      (∀ b, List.Sorted (· > ·)
        (analyzeBlock g.numRegs req (blockAt g b).instrs
          (gdiOut g succs req b)).2) ∧
      ∀ b, (filterLive g.numRegs req (blockAt g b).instrs
            (gdiOut g succs req b)).length +
          (analyzeBlock g.numRegs req (blockAt g b).instrs
            (gdiOut g succs req b)).2.length =
        (blockAt g b).instrs.length := by
  refine ⟨rfl, ?_,
    fun b => analyzeBlock_sorted g.numRegs req (blockAt g b).instrs
      (gdiOut g succs req b),
    fun b => analyzeBlock_filterLive_length g.numRegs req
      (blockAt g b).instrs (gdiOut g succs req b)⟩
  intro b k
  constructor
  · intro hmem
    rcases List.mem_flatten.mp hmem with ⟨lst, hlst, hin⟩
    rcases List.mem_map.mp hlst with ⟨b', hb', rfl⟩
    rcases List.mem_map.mp hin with ⟨k', hk', hpair⟩
    have hb : b' = b := congrArg Prod.fst hpair
    have hk : k' = k := congrArg Prod.snd hpair
    subst hb
    subst hk
    exact ⟨hb', (analyzeBlock_mem g.numRegs req (blockAt g b').instrs
      (gdiOut g succs req b') k').mp hk'⟩
  · intro hcon
    rcases hcon with ⟨hb, hdead⟩
    refine List.mem_flatten.mpr ⟨_, List.mem_map.mpr ⟨b, hb, rfl⟩, ?_⟩
    exact List.mem_map.mpr ⟨k, (analyzeBlock_mem g.numRegs req
      (blockAt g b).instrs (gdiOut g succs req b) k).mpr hdead, rfl⟩
